import Mathlib

/-!
# Verification of the midijs SMF codec

A shallow embedding of the `@flat/midijs` Standard MIDI File codec
(header + tracks + events, VarInt encoding, running-status compression,
chunk framing) together with proofs of the library's documented
properties: VarInt laws, round-trip of encode/parse, running-status
equivalence, meta payload-length validation, error behaviour, and the
track-count invariant of the mutation API.

The repository ships only the TypeScript declaration file
`src/midijs.d.ts`; the bodies of the codec functions are not part of the
sources.  Every operational definition below is therefore modelled from
the specification (its doc comment says so), keeping the names of the
declared functions (`encodeVarInt`, `parseVarInt`, `encodeEvent`,
`parseEvent`, `encodeTrack`, `parseTrack`, `addTrack`, `removeTrack`,
`getTrack`, `getEvent`, …).  Bytes are modelled as natural numbers,
buffers as lists of bytes, and fallible operations return `Except`.
-/

namespace Midijs

/-- Modelled from the spec: the error taxonomy of `@flat/midijs/lib/error`
(§7): `MIDIParserError`, `MIDIEncoderError`, `MIDIInvalidEventError`
(with a distinguished case for the invalid-VarInt failure of
`parseVarInt`), `MIDIInvalidArgument`, `MIDINotMIDIError`,
`MIDINotSupportedError`, and the cursor `Overflow` of `buffercursor`. -/
inductive Err where
  | parserError
  | encoderError
  | invalidVarInt
  | invalidEvent
  | invalidArgument
  | notMIDI
  | notSupported
  | overflow
  deriving DecidableEq, Repr

/-- Modelled from the spec: the event model of `@flat/midijs/lib/file/event`
(§3): a tagged sum of `MetaEvent` (type byte + opaque data payload),
`SysexEvent` (data payload, excluding the leading status byte and the
trailing 0xF7), and `ChannelEvent` (high-nibble type, channel, param1,
param2; `param2` is kept `0` for the one-parameter types PROGRAM_CHANGE
and CHANNEL_AFTERTOUCH).  Every variant carries its `delay` (delta
ticks). -/
inductive Event where
  | meta (delay : Nat) (type : Nat) (data : List Nat)
  | sysex (delay : Nat) (data : List Nat)
  | channel (delay : Nat) (type : Nat) (channel : Nat) (param1 : Nat) (param2 : Nat)
  deriving DecidableEq, Repr

/-- Modelled from the spec: a `Track` owns an ordered list of events
(`@flat/midijs/lib/file/track`). -/
structure Track where
  events : List Event
  deriving DecidableEq, Repr

/-- Modelled from the spec: the `Header` of `@flat/midijs/lib/file/header`:
`fileType` ∈ {0,1,2}, `trackCount`, and the 16-bit `division`
(`ticksPerBeat` in metrical mode). -/
structure Header where
  fileType : Nat
  trackCount : Nat
  division : Nat
  deriving DecidableEq, Repr

/-- Modelled from the spec: a `File` (`@flat/midijs/lib/file`) owns one
header and a list of tracks. -/
structure File where
  header : Header
  tracks : List Track
  deriving DecidableEq, Repr

/-! ## VarInt codec -/

/-- Continuation bytes (high bit set) of the big-endian 7-bit groups of
`m`, most significant first. -/
def varIntCont : Nat → List Nat
  | m =>
    if h : m < 128 then [m + 128]
    else
      have : m / 128 < m := Nat.div_lt_self (by omega) (by omega)
      varIntCont (m / 128) ++ [m % 128 + 128]

/-- Modelled from the spec: `encodeVarInt`
(`@flat/midijs/lib/file/encoder/event`): emit big-endian 7-bit groups,
high bit set on all but the last, shortest form; value 0 encodes as the
single byte 0x00. -/
def encodeVarInt (n : Nat) : List Nat :=
  if n < 128 then [n] else varIntCont (n / 128) ++ [n % 128]

/-- Accumulating loop of `parseVarInt`: `acc` is the value so far,
`count` the number of continuation bytes already consumed; fails with
`InvalidVarInt` once four bytes were consumed without a terminator. -/
def parseVarIntAux (acc count : Nat) : List Nat → Except Err (Nat × List Nat)
  | [] => if count ≥ 4 then .error .invalidVarInt else .error .overflow
  | b :: rest =>
    if count ≥ 4 then .error .invalidVarInt
    else if b < 128 then .ok (acc * 128 + b % 128, rest)
    else parseVarIntAux (acc * 128 + b % 128) (count + 1) rest

/-- Modelled from the spec: `parseVarInt`
(`@flat/midijs/lib/file/parser/event`): accumulate
`(value<<7) | (byte & 0x7F)`, stop when the high bit is clear, fail with
`InvalidVarInt` after 4 bytes with no terminator.  Returns the value and
the unconsumed tail. -/
def parseVarInt (bytes : List Nat) : Except Err (Nat × List Nat) :=
  parseVarIntAux 0 0 bytes

/-! ## Cursor primitives and chunk framing -/

/-- Read exactly `n` bytes from the front of the buffer; a read past the
end fails with the cursor's `Overflow`. -/
def readBytes (n : Nat) (bytes : List Nat) : Except Err (List Nat × List Nat) :=
  if n ≤ bytes.length then .ok (bytes.take n, bytes.drop n) else .error .overflow

/-- Big-endian value of a byte list. -/
def beVal (bytes : List Nat) : Nat :=
  bytes.foldl (fun a b => a * 256 + b) 0

/-- The two big-endian bytes of a 16-bit value. -/
def u16be (n : Nat) : List Nat :=
  [n / 256 % 256, n % 256]

/-- The four big-endian bytes of a 32-bit value. -/
def u32be (n : Nat) : List Nat :=
  [n / 16777216 % 256, n / 65536 % 256, n / 256 % 256, n % 256]

/-- The ASCII bytes of the header chunk tag `MThd`. -/
def mthdTag : List Nat := [0x4D, 0x54, 0x68, 0x64]

/-- The ASCII bytes of the track chunk tag `MTrk`. -/
def mtrkTag : List Nat := [0x4D, 0x54, 0x72, 0x6B]

/-- Modelled from the spec: `encodeChunk`
(`@flat/midijs/lib/file/encoder/chunk`): 4 ASCII type bytes, 4-byte
big-endian length, then the body. -/
def encodeChunk (type data : List Nat) : List Nat :=
  type ++ u32be data.length ++ data

/-- Read one chunk: its 4 type bytes, its body (a sub-cursor of exactly
`length` bytes), and the tail after the chunk. -/
def parseRawChunk (bytes : List Nat) : Except Err (List Nat × List Nat × List Nat) := do
  let (ty, r1) ← readBytes 4 bytes
  let (lenB, r2) ← readBytes 4 r1
  let (body, rest) ← readBytes (beVal lenB) r2
  .ok (ty, body, rest)

/-- Modelled from the spec: `parseChunk`
(`@flat/midijs/lib/file/parser/chunk`): read one chunk and fail with
`MIDIParserError` when the type tag differs from the expected one. -/
def parseChunk (expected bytes : List Nat) : Except Err (List Nat × List Nat) := do
  let (ty, body, rest) ← parseRawChunk bytes
  if ty = expected then .ok (body, rest) else .error .parserError

/-! ## Event codec -/

/-- Modelled from the spec: the required payload length of each
recognized meta type (§3); unrecognized types accept any length. -/
def metaLengthOK (type len : Nat) : Bool :=
  if type = 0x00 then len = 2          -- SEQUENCE_NUMBER
  else if type = 0x20 then len = 1     -- MIDI_CHANNEL
  else if type = 0x2F then len = 0     -- END_OF_TRACK
  else if type = 0x51 then len = 3     -- SET_TEMPO
  else if type = 0x58 then len = 4     -- TIME_SIGNATURE
  else if type = 0x59 then len = 2     -- KEY_SIGNATURE
  else true

/-- Modelled from the spec: `parseMetaEvent`
(`@flat/midijs/lib/file/parser/event`), entered after the 0xFF status
byte: read the type byte, a VarInt length, then that many data bytes;
when the type is recognized and the payload length does not match,
fail with `MIDIInvalidEventError`. -/
def parseMetaEvent (delay : Nat) (bytes : List Nat) : Except Err (Event × List Nat) := do
  match bytes with
  | [] => .error .overflow
  | ty :: r1 => do
    let (len, r2) ← parseVarInt r1
    let (data, rest) ← readBytes len r2
    if metaLengthOK ty len then .ok (.meta delay ty data, rest)
    else .error .invalidEvent

/-- Modelled from the spec: `parseSysexEvent`
(`@flat/midijs/lib/file/parser/event`), entered after the 0xF0/0xF7
status byte: read a VarInt length, then that many data bytes. -/
def parseSysexEvent (delay : Nat) (bytes : List Nat) : Except Err (Event × List Nat) := do
  let (len, rest) ← parseVarInt bytes
  let (data, rest') ← readBytes len rest
  .ok (.sysex delay data, rest')

/-- Modelled from the spec: `parseChannelEvent`
(`@flat/midijs/lib/file/parser/event`): read param1, and a second data
byte param2 unless the type is PROGRAM_CHANGE (0xC) or
CHANNEL_AFTERTOUCH (0xD); each data byte must have its high bit
clear. -/
def parseChannelEvent (delay type channel : Nat) (bytes : List Nat) :
    Except Err (Event × List Nat) := do
  match bytes with
  | [] => .error .overflow
  | p1 :: r1 =>
    if p1 ≥ 128 then .error .parserError
    else if type = 0xC ∨ type = 0xD then .ok (.channel delay type channel p1 0, r1)
    else match r1 with
      | [] => .error .overflow
      | p2 :: r2 =>
        if p2 ≥ 128 then .error .parserError
        else .ok (.channel delay type channel p1 p2, r2)

/-- Dispatch of `parseEvent` on the effective status byte `s`. -/
def parseEventBody (delay s : Nat) (bytes : List Nat) :
    Except Err (Event × Nat × List Nat) := do
  if s = 0xFF then
    let (e, rest) ← parseMetaEvent delay bytes
    .ok (e, 0, rest)
  else if s = 0xF0 ∨ s = 0xF7 then
    let (e, rest) ← parseSysexEvent delay bytes
    .ok (e, 0, rest)
  else if 0x80 ≤ s ∧ s < 0xF0 then
    let (e, rest) ← parseChannelEvent delay (s / 16) (s % 16) bytes
    .ok (e, s, rest)
  else if 0xF0 < s ∧ s < 0xFF then .error .notSupported
  else .error .invalidEvent

/-- Modelled from the spec: `parseEvent`
(`@flat/midijs/lib/file/parser/event`), the central state machine
(§4.4): read the delay as VarInt, peek one byte; a status byte (high
bit set) is consumed, a data byte reuses `runningStatus` and fails with
`MIDIInvalidEventError` when no prior status exists
(`runningStatus = 0`); then dispatch on the effective status.  Returns
the event, the new running status and the unconsumed tail. -/
def parseEvent (bytes : List Nat) (runningStatus : Nat) :
    Except Err (Event × Nat × List Nat) := do
  let (delay, rest) ← parseVarInt bytes
  match rest with
  | [] => .error .overflow
  | b :: rest' =>
    if b ≥ 128 then parseEventBody delay b rest'
    else if runningStatus = 0 then .error .invalidEvent
    else parseEventBody delay runningStatus (b :: rest')

/-- Modelled from the spec: `encodeMetaEvent`
(`@flat/midijs/lib/file/encoder/event`): 0xFF, the type byte, the
VarInt payload length, then the payload. -/
def encodeMetaEvent (type : Nat) (data : List Nat) : List Nat :=
  0xFF :: type :: encodeVarInt data.length ++ data

/-- Modelled from the spec: `encodeSysexEvent`
(`@flat/midijs/lib/file/encoder/event`): 0xF0, the VarInt payload
length, then the payload. -/
def encodeSysexEvent (data : List Nat) : List Nat :=
  0xF0 :: encodeVarInt data.length ++ data

/-- Modelled from the spec: `encodeChannelEvent`
(`@flat/midijs/lib/file/encoder/event`): the status byte composed as
`(type<<4)|channel` — omitted when it equals the running status — then
param1, and param2 unless the type is PROGRAM_CHANGE (0xC) or
CHANNEL_AFTERTOUCH (0xD). -/
def encodeChannelEvent (type channel p1 p2 runningStatus : Nat) : List Nat :=
  (if type * 16 + channel = runningStatus then [] else [type * 16 + channel]) ++
    (if type = 0xC ∨ type = 0xD then [p1] else [p1, p2])

/-- Modelled from the spec: `encodeEvent`
(`@flat/midijs/lib/file/encoder/event`): the delay as VarInt, then the
variant's wire form; returns the bytes and the new running status
(channel events set it to their status byte, meta and sysex events
clear it). -/
def encodeEvent (e : Event) (runningStatus : Nat) : List Nat × Nat :=
  match e with
  | .meta delay ty data => (encodeVarInt delay ++ encodeMetaEvent ty data, 0)
  | .sysex delay data => (encodeVarInt delay ++ encodeSysexEvent data, 0)
  | .channel delay ty ch p1 p2 =>
    (encodeVarInt delay ++ encodeChannelEvent ty ch p1 p2 runningStatus,
     ty * 16 + ch)

/-- Serialize a list of events, threading the running status. -/
def encodeEvents : List Event → Nat → List Nat
  | [], _ => []
  | e :: es, rs =>
    let (b, rs') := encodeEvent e rs
    b ++ encodeEvents es rs'

/-- Serialize a list of events with the running-status optimisation
disabled: every event is encoded as if no prior status existed, so every
channel event carries its status byte. -/
def encodeEventsPlain (es : List Event) : List Nat :=
  (es.map (fun e => (encodeEvent e 0).1)).flatten

/-- Fuelled loop of `parseEvents`: parse events until the buffer is
exhausted.  Each event consumes at least one byte, so a fuel of
`bytes.length + 1` always suffices. -/
def parseEventsAux : Nat → List Nat → Nat → Except Err (List Event)
  | _, [], _ => .ok []
  | 0, _ :: _, _ => .error .parserError
  | fuel + 1, b :: bs, rs => do
    let (e, rs', rest) ← parseEvent (b :: bs) rs
    let es ← parseEventsAux fuel rest rs'
    .ok (e :: es)

/-- Parse a whole event-stream buffer (a track body) into its event
list, starting with a cleared running status. -/
def parseEvents (bytes : List Nat) (rs : Nat) : Except Err (List Event) :=
  parseEventsAux (bytes.length + 1) bytes rs

/-! ## Track codec -/

/-- The End-of-Track meta event (type 0x2F, empty payload) with a given
delay. -/
def endOfTrack (delay : Nat) : Event :=
  .meta delay 0x2F []

/-- Whether the last event of a list is a MetaEvent of type End-of-Track
(0x2F). -/
def endsWithEOT (es : List Event) : Bool :=
  match es.getLast? with
  | some (.meta _ ty _) => ty = 0x2F
  | _ => false

/-- Modelled from the spec: `encodeTrack`
(`@flat/midijs/lib/file/encoder/track`): serialize the events into a
body (running status reset at the start), appending an End-of-Track
with delay 0 when the list lacks a terminal one, then wrap the body in
an `MTrk` chunk. -/
def encodeTrack (t : Track) : List Nat :=
  let es := if endsWithEOT t.events then t.events else t.events ++ [endOfTrack 0]
  encodeChunk mtrkTag (encodeEvents es 0)

/-- Parse a track body (the inside of an `MTrk` chunk): parse events
until end-of-chunk with running status reset; the final event must be
End-of-Track, otherwise fail with `MIDIInvalidEventError` (one is never
synthesized). -/
def parseTrackBody (body : List Nat) : Except Err Track := do
  let es ← parseEvents body 0
  if endsWithEOT es then .ok ⟨es⟩ else .error .invalidEvent

/-- Modelled from the spec: `parseTrack`
(`@flat/midijs/lib/file/parser/track`): expect an `MTrk` chunk and parse
its body as an event stream that must end in End-of-Track. -/
def parseTrack (bytes : List Nat) : Except Err (Track × List Nat) := do
  let (body, rest) ← parseChunk mtrkTag bytes
  let t ← parseTrackBody body
  .ok (t, rest)

/-! ## File codec -/

/-- Modelled from the spec: serializing a `File` (`File.getData`): the
`MThd` chunk of length 6 carrying fileType, the current number of
tracks (overriding any stale stored trackCount), and the division, then
each track chunk in order. -/
def encodeFile (f : File) : List Nat :=
  encodeChunk mthdTag
      (u16be f.header.fileType ++ u16be f.tracks.length ++ u16be f.header.division)
    ++ (f.tracks.map encodeTrack).flatten

/-- Fuelled loop of the file assembler: parse the next `n` declared
track chunks, silently skipping chunks of unknown type; running out of
bytes before the declared tracks is a `MIDIParserError`. -/
def parseTracksAux : Nat → Nat → List Nat → Except Err (List Track)
  | _, 0, _ => .ok []
  | 0, _ + 1, _ => .error .parserError
  | fuel + 1, n + 1, bytes => do
    match parseRawChunk bytes with
    | .error _ => .error .parserError
    | .ok (ty, body, rest) =>
      if ty = mtrkTag then do
        let t ← parseTrackBody body
        let ts ← parseTracksAux fuel n rest
        .ok (t :: ts)
      else parseTracksAux fuel (n + 1) rest

/-- Modelled from the spec: parsing a `File` (`File.setData`): the first
chunk's tag must be `MThd` — anything else fails with `MIDINotMIDIError`
— with body length 6 holding fileType (u16 BE), trackCount (u16 BE) and
division (u16 BE); fileType must be in {0,1,2} and fileType 0 admits at
most one track; then exactly `trackCount` track chunks follow, unknown
chunk types being skipped. -/
def parseFile (bytes : List Nat) : Except Err File := do
  let (ty, r1) ← readBytes 4 bytes
  if ty ≠ mthdTag then .error .notMIDI
  else do
    let (lenB, r2) ← readBytes 4 r1
    if beVal lenB ≠ 6 then .error .parserError
    else do
      let (ftB, r3) ← readBytes 2 r2
      let (tcB, r4) ← readBytes 2 r3
      let (dvB, r5) ← readBytes 2 r4
      let ft := beVal ftB
      let tc := beVal tcB
      if ft > 2 then .error .invalidArgument
      else if ft = 0 ∧ tc > 1 then .error .invalidArgument
      else do
        let ts ← parseTracksAux (r5.length + 1) tc r5
        .ok ⟨⟨ft, tc, beVal dvB⟩, ts⟩

/-! ## Mutation and access API -/

/-- Modelled from the spec: `Track.getEvent(index)`: the event at the
index, or nothing (never an error) when the index is out of range. -/
def Track.getEvent (t : Track) (i : Int) : Option Event :=
  if i < 0 then none else t.events[i.toNat]?

/-- Modelled from the spec: `File.getTrack(index)`: the track at the
index, or nothing (never an error) when the index is out of range. -/
def File.getTrack (f : File) (i : Int) : Option Track :=
  if i < 0 then none else f.tracks[i.toNat]?

/-- Modelled from the spec: `File.addTrack(index?, events)`: construct a
Track from the events (End-of-Track appended when missing), insert it
at the index (append by default), and update the header's
trackCount. -/
def File.addTrack (f : File) (i : Option Nat) (events : List Event) : File :=
  let t : Track := ⟨if endsWithEOT events then events else events ++ [endOfTrack 0]⟩
  let tracks' := f.tracks.insertIdx (i.getD f.tracks.length) t
  ⟨⟨f.header.fileType, tracks'.length, f.header.division⟩, tracks'⟩

/-- Modelled from the spec: `File.removeTrack(index?)`: remove the track
at the index (the last by default) and update the header's trackCount;
on a file with no tracks fail with `MIDIInvalidArgument`. -/
def File.removeTrack (f : File) (i : Option Nat) : Except Err File :=
  if f.tracks.isEmpty then .error .invalidArgument
  else
    let tracks' := f.tracks.eraseIdx (i.getD (f.tracks.length - 1))
    .ok ⟨⟨f.header.fileType, tracks'.length, f.header.division⟩, tracks'⟩

/-! ## Well-formedness (what the construction API validates, §4.3) -/

/-- Events constructible through the validated API: delays below the
VarInt limit 2^28; meta types in 0..127 with a payload matching the
recognized lengths; channel types in 0x8..0xE with channel ≤ 15 and
7-bit params, param2 being 0 for the one-parameter types. -/
def Event.wf : Event → Prop
  | .meta delay ty data =>
    delay < 2 ^ 28 ∧ ty < 128 ∧ data.length < 2 ^ 28 ∧ metaLengthOK ty data.length
  | .sysex delay data => delay < 2 ^ 28 ∧ data.length < 2 ^ 28
  | .channel delay ty ch p1 p2 =>
    delay < 2 ^ 28 ∧ 8 ≤ ty ∧ ty ≤ 14 ∧ ch < 16 ∧ p1 < 128 ∧ p2 < 128 ∧
      ((ty = 0xC ∨ ty = 0xD) → p2 = 0)

instance : DecidablePred Event.wf := by
  intro e
  cases e <;> simp only [Event.wf] <;> infer_instance

/-- A track whose events are all constructible through the API and whose
encoded body fits a 32-bit chunk length. -/
def Track.wf (t : Track) : Prop :=
  (∀ e ∈ t.events, e.wf) ∧ (encodeEvents t.events 0).length < 2 ^ 32

instance : DecidablePred Track.wf := by
  intro t
  unfold Track.wf
  infer_instance

/-- A file consistent with what the API constructs: fileType in {0,1,2}
(a single-track file having at most one track), a metrical division in
1..32767, a header trackCount matching the track list, at most 65535
tracks, and well-formed tracks. -/
def File.wf (f : File) : Prop :=
  f.header.fileType ≤ 2 ∧ (f.header.fileType = 0 → f.tracks.length ≤ 1) ∧
    0 < f.header.division ∧ f.header.division < 32768 ∧
    f.header.trackCount = f.tracks.length ∧ f.tracks.length < 65536 ∧
    ∀ t ∈ f.tracks, t.wf

instance : DecidablePred File.wf := by
  intro f
  unfold File.wf
  infer_instance

/-! ## VarInt lemmas -/

theorem varIntCont_ne_nil (m : Nat) : varIntCont m ≠ [] := by
  rw [varIntCont]
  split <;> simp

theorem varIntCont_length_le (k : Nat) :
    ∀ m, m < 2 ^ (7 * (k + 1)) → (varIntCont m).length ≤ k + 1 := by
  induction k with
  | zero =>
    intro m hm
    rw [varIntCont]
    have : m < 128 := by simpa using hm
    simp [this]
  | succ k ih =>
    intro m hm
    rw [varIntCont]
    split
    · simp
    · have hdiv : m / 128 < 2 ^ (7 * (k + 1)) := by
        rw [Nat.div_lt_iff_lt_mul (by norm_num)]
        calc m < 2 ^ (7 * (k + 2)) := hm
          _ = 2 ^ (7 * (k + 1)) * 128 := by ring
      have := ih (m / 128) hdiv
      simp only [List.length_append, List.length_cons, List.length_nil]
      omega

theorem parseVarIntAux_cont (m : Nat) :
    ∀ acc count rest, count + (varIntCont m).length ≤ 4 →
      parseVarIntAux acc count (varIntCont m ++ rest) =
        parseVarIntAux (acc * 128 ^ (varIntCont m).length + m)
          (count + (varIntCont m).length) rest := by
  induction m using Nat.strong_induction_on with
  | _ m ih =>
    intro acc count rest h
    by_cases hm : m < 128
    · rw [varIntCont, dif_pos hm] at h ⊢
      simp only [List.length_cons, List.length_nil] at h ⊢
      have hc : ¬ count ≥ 4 := by omega
      have hb : ¬ m + 128 < 128 := by omega
      simp only [List.cons_append, List.nil_append, parseVarIntAux, if_neg hc,
        if_neg hb]
      congr 1
      · have : (m + 128) % 128 = m := by omega
        rw [this]; ring
    · rw [varIntCont, dif_neg hm] at h ⊢
      simp only [List.length_append, List.length_cons, List.length_nil] at h ⊢
      have hdiv : m / 128 < m := Nat.div_lt_self (by omega) (by norm_num)
      rw [List.append_assoc, List.cons_append, List.nil_append]
      rw [ih (m / 128) hdiv acc count _ (by omega)]
      set L := (varIntCont (m / 128)).length with hL
      have hc : ¬ count + L ≥ 4 := by omega
      have hb : ¬ m % 128 + 128 < 128 := by omega
      simp only [parseVarIntAux, if_neg hc, if_neg hb]
      congr 1
      · have h128 : (m % 128 + 128) % 128 = m % 128 := by omega
        rw [h128, Nat.pow_succ]
        have := Nat.div_add_mod m 128
        ring_nf
        omega

theorem parseVarInt_encodeVarInt (n : Nat) (h : n < 2 ^ 28) (rest : List Nat) :
    parseVarInt (encodeVarInt n ++ rest) = .ok (n, rest) := by
  unfold parseVarInt encodeVarInt
  by_cases hn : n < 128
  · simp only [if_pos hn, List.cons_append, List.nil_append, parseVarIntAux]
    have : n % 128 = n := Nat.mod_eq_of_lt hn
    norm_num [this]
  · simp only [if_neg hn]
    have hdiv : n / 128 < 2 ^ (7 * 3) := by
      rw [Nat.div_lt_iff_lt_mul (by norm_num)]
      calc n < 2 ^ 28 := h
        _ = 2 ^ (7 * 3) * 128 := by norm_num
    have hlen : (varIntCont (n / 128)).length ≤ 3 := varIntCont_length_le 2 _ hdiv
    rw [List.append_assoc, List.cons_append, List.nil_append,
      parseVarIntAux_cont (n / 128) 0 0 _ (by omega)]
    have hc : ¬ 0 + (varIntCont (n / 128)).length ≥ 4 := by omega
    have hb : n % 128 < 128 := Nat.mod_lt _ (by norm_num)
    simp only [parseVarIntAux, if_neg hc, if_pos hb]
    have h128 : n % 128 % 128 = n % 128 := Nat.mod_eq_of_lt hb
    have := Nat.div_add_mod n 128
    simp only [h128, Nat.zero_mul, Nat.zero_add, Except.ok.injEq, Prod.mk.injEq]
    exact ⟨by omega, trivial⟩

theorem size_div_128 (m : Nat) (hm : 128 ≤ m) :
    Nat.size m = Nat.size (m / 128) + 7 := by
  have h1 : Nat.size m ≤ Nat.size (m / 128) + 7 := by
    rw [Nat.size_le]
    have : m / 128 < 2 ^ Nat.size (m / 128) := Nat.lt_size_self _
    calc m < (m / 128 + 1) * 128 := by
            have := Nat.div_add_mod m 128
            have := Nat.mod_lt m (show 0 < 128 by norm_num)
            omega
      _ ≤ 2 ^ Nat.size (m / 128) * 128 := by
            exact Nat.mul_le_mul_right _ (by omega)
      _ = 2 ^ (Nat.size (m / 128) + 7) := by rw [Nat.pow_add]
  have h2 : Nat.size (m / 128) + 7 ≤ Nat.size m := by
    have hsz : 8 ≤ Nat.size m := by
      have : (2 : Nat) ^ 7 ≤ m := hm
      have := Nat.lt_size.mpr this
      omega
    have : m / 128 < 2 ^ (Nat.size m - 7) := by
      rw [Nat.div_lt_iff_lt_mul (by norm_num)]
      have hpow : 2 ^ (Nat.size m - 7) * 128 = 2 ^ Nat.size m := by
        have : Nat.size m - 7 + 7 = Nat.size m := by omega
        calc 2 ^ (Nat.size m - 7) * 128 = 2 ^ (Nat.size m - 7 + 7) := by
              rw [Nat.pow_add]
          _ = 2 ^ Nat.size m := by rw [this]
      rw [hpow]
      exact Nat.lt_size_self m
    have := Nat.size_le.mpr this
    omega
  omega

theorem varIntCont_length_eq (m : Nat) :
    (varIntCont m).length = max 1 ((Nat.size m + 6) / 7) := by
  induction m using Nat.strong_induction_on with
  | _ m ih =>
    rw [varIntCont]
    by_cases hm : m < 128
    · rw [dif_pos hm]
      have : Nat.size m ≤ 7 := Nat.size_le.mpr (by simpa using hm)
      simp only [List.length_cons, List.length_nil]
      omega
    · rw [dif_neg hm]
      have hdiv : m / 128 < m := Nat.div_lt_self (by omega) (by norm_num)
      have hsz := size_div_128 m (by omega)
      rw [List.length_append, ih (m / 128) hdiv]
      simp only [List.length_cons, List.length_nil]
      have h7 : (Nat.size m + 6) / 7 = (Nat.size (m / 128) + 6) / 7 + 1 := by
        rw [hsz]
        omega
      have hpos : 0 < Nat.size (m / 128) := Nat.size_pos.mpr (Nat.div_pos (by omega) (by norm_num))
      have hq1 : 1 ≤ (Nat.size (m / 128) + 6) / 7 := by omega
      have hq2 : 1 ≤ (Nat.size m + 6) / 7 := by omega
      rw [Nat.max_eq_right hq1, Nat.max_eq_right hq2]
      omega

theorem encodeVarInt_ne_nil (n : Nat) : encodeVarInt n ≠ [] := by
  unfold encodeVarInt
  split
  · simp
  · simp

/-! ## Byte-reading lemmas -/

theorem readBytes_exact (data rest : List Nat) :
    readBytes data.length (data ++ rest) = .ok (data, rest) := by
  unfold readBytes
  rw [if_pos (by simp), List.take_left, List.drop_left]

theorem readBytes_exact_len (n : Nat) (data rest : List Nat) (h : data.length = n) :
    readBytes n (data ++ rest) = .ok (data, rest) := h ▸ readBytes_exact data rest

theorem encodeVarInt_length (n : Nat) :
    (encodeVarInt n).length = max 1 ((Nat.size n + 6) / 7) := by
  unfold encodeVarInt
  by_cases hn : n < 128
  · rw [if_pos hn]
    have : Nat.size n ≤ 7 := Nat.size_le.mpr (by simpa using hn)
    simp only [List.length_cons, List.length_nil]
    omega
  · rw [if_neg hn]
    have hsz := size_div_128 n (by omega)
    rw [List.length_append, varIntCont_length_eq]
    simp only [List.length_cons, List.length_nil]
    have hsz8 : 8 ≤ Nat.size n := by
      have : (2 : Nat) ^ 7 ≤ n := by omega
      have := Nat.lt_size.mpr this
      omega
    have h7 : (Nat.size n + 6) / 7 = (Nat.size (n / 128) + 6) / 7 + 1 := by
      rw [hsz]; omega
    omega

/-! ## Event round-trip lemmas -/

theorem exceptBind_ok {α β : Type} (a : α) (f : α → Except Err β) :
    (Except.ok a : Except Err α) >>= f = f a := rfl

/-- After a status byte (high bit set), `parseEvent` reads the delay and
dispatches on that byte. -/
theorem parseEvent_status (d b : Nat) (rest' : List Nat) (rs : Nat)
    (hd : d < 2 ^ 28) (hb : 128 ≤ b) :
    parseEvent (encodeVarInt d ++ (b :: rest')) rs = parseEventBody d b rest' := by
  unfold parseEvent
  rw [parseVarInt_encodeVarInt d hd]
  simp only [exceptBind_ok]
  rw [if_pos hb]

/-- After a data byte (high bit clear) with a nonzero running status,
`parseEvent` dispatches on the running status without consuming the
byte. -/
theorem parseEvent_running (d b : Nat) (rest' : List Nat) (rs : Nat)
    (hd : d < 2 ^ 28) (hb : b < 128) (hrs : rs ≠ 0) :
    parseEvent (encodeVarInt d ++ (b :: rest')) rs = parseEventBody d rs (b :: rest') := by
  unfold parseEvent
  rw [parseVarInt_encodeVarInt d hd]
  simp only [exceptBind_ok]
  rw [if_neg (by omega), if_neg hrs]

theorem parseMetaEvent_encode (d ty : Nat) (data extra : List Nat)
    (hlen : data.length < 2 ^ 28) (hok : metaLengthOK ty data.length = true) :
    parseMetaEvent d (ty :: (encodeVarInt data.length ++ (data ++ extra))) =
      .ok (.meta d ty data, extra) := by
  simp only [parseMetaEvent]
  rw [parseVarInt_encodeVarInt _ hlen]
  simp only [exceptBind_ok]
  rw [readBytes_exact]
  simp [hok]
  rfl

theorem parseSysexEvent_encode (d : Nat) (data extra : List Nat)
    (hlen : data.length < 2 ^ 28) :
    parseSysexEvent d (encodeVarInt data.length ++ (data ++ extra)) =
      .ok (.sysex d data, extra) := by
  simp only [parseSysexEvent]
  rw [parseVarInt_encodeVarInt _ hlen]
  simp only [exceptBind_ok]
  rw [readBytes_exact]
  rfl

theorem parseEventBody_meta (d ty : Nat) (data extra : List Nat)
    (hlen : data.length < 2 ^ 28) (hok : metaLengthOK ty data.length = true) :
    parseEventBody d 0xFF (ty :: (encodeVarInt data.length ++ (data ++ extra))) =
      .ok (.meta d ty data, 0, extra) := by
  unfold parseEventBody
  rw [if_pos rfl, parseMetaEvent_encode d ty data extra hlen hok]
  rfl

theorem parseEventBody_sysex (d : Nat) (data extra : List Nat)
    (hlen : data.length < 2 ^ 28) :
    parseEventBody d 0xF0 (encodeVarInt data.length ++ (data ++ extra)) =
      .ok (.sysex d data, 0, extra) := by
  unfold parseEventBody
  rw [if_neg (by norm_num), if_pos (by norm_num),
    parseSysexEvent_encode d data extra hlen]
  rfl

theorem parseEventBody_channel (d ty ch p1 p2 : Nat) (extra : List Nat)
    (hty : 8 ≤ ty) (hty' : ty ≤ 14) (hch : ch < 16)
    (hp1 : p1 < 128) (hp2 : p2 < 128) (hp2' : (ty = 0xC ∨ ty = 0xD) → p2 = 0) :
    parseEventBody d (ty * 16 + ch)
        ((if ty = 0xC ∨ ty = 0xD then [p1] else [p1, p2]) ++ extra) =
      .ok (.channel d ty ch p1 p2, ty * 16 + ch, extra) := by
  have hdivs : (ty * 16 + ch) / 16 = ty := by omega
  have hmods : (ty * 16 + ch) % 16 = ch := by omega
  unfold parseEventBody
  rw [if_neg (by omega), if_neg (by omega), if_pos (by constructor <;> omega)]
  rw [hdivs, hmods]
  by_cases h1 : ty = 0xC ∨ ty = 0xD
  · rw [if_pos h1]
    simp only [List.cons_append, List.nil_append, parseChannelEvent]
    rw [if_neg (by omega), if_pos h1, hp2' h1]
    rfl
  · rw [if_neg h1]
    simp only [List.cons_append, List.nil_append, parseChannelEvent]
    rw [if_neg (by omega), if_neg h1, if_neg (by omega)]
    rfl

/-- One-event round trip: parsing right after encoding yields the event
back, with the tail untouched.  The encoder may have omitted the status
byte (when its running status `rs₀` matched); in that case the parser's
running status `rs₁` must match as well — both sides thread the same
status through a track, so this always holds in context. -/
theorem parseEvent_encodeEvent (e : Event) (rs₀ rs₁ : Nat) (extra : List Nat)
    (he : e.wf)
    (hrs : ∀ d ty ch p1 p2, e = .channel d ty ch p1 p2 →
      ty * 16 + ch = rs₀ → ty * 16 + ch = rs₁) :
    parseEvent ((encodeEvent e rs₀).1 ++ extra) rs₁ =
      .ok (e, (encodeEvent e rs₀).2, extra) := by
  match e with
  | .meta d ty data =>
    obtain ⟨hd, hty, hlen, hok⟩ := he
    show parseEvent ((encodeVarInt d ++ encodeMetaEvent ty data) ++ extra) rs₁ = _
    rw [List.append_assoc]
    unfold encodeMetaEvent
    simp only [List.cons_append, List.append_assoc]
    rw [parseEvent_status d 0xFF _ rs₁ hd (by norm_num)]
    exact parseEventBody_meta d ty data extra hlen hok
  | .sysex d data =>
    obtain ⟨hd, hlen⟩ := he
    show parseEvent ((encodeVarInt d ++ encodeSysexEvent data) ++ extra) rs₁ = _
    rw [List.append_assoc]
    unfold encodeSysexEvent
    simp only [List.cons_append, List.append_assoc]
    rw [parseEvent_status d 0xF0 _ rs₁ hd (by norm_num)]
    exact parseEventBody_sysex d data extra hlen
  | .channel d ty ch p1 p2 =>
    obtain ⟨hd, hty, hty', hch, hp1, hp2, hp2'⟩ := he
    show parseEvent ((encodeVarInt d ++ encodeChannelEvent ty ch p1 p2 rs₀) ++ extra) rs₁ = _
    rw [List.append_assoc]
    unfold encodeChannelEvent
    by_cases hsame : ty * 16 + ch = rs₀
    · rw [if_pos hsame]
      have hrs₁ : ty * 16 + ch = rs₁ := hrs d ty ch p1 p2 rfl hsame
      simp only [List.nil_append]
      by_cases h1 : ty = 0xC ∨ ty = 0xD
      · rw [if_pos h1]
        simp only [List.cons_append, List.nil_append]
        rw [parseEvent_running d p1 extra rs₁ hd hp1 (by omega), ← hrs₁]
        have := parseEventBody_channel d ty ch p1 p2 extra hty hty' hch hp1 hp2 hp2'
        rw [if_pos h1] at this
        simpa using this
      · rw [if_neg h1]
        simp only [List.cons_append, List.nil_append]
        rw [parseEvent_running d p1 (p2 :: extra) rs₁ hd hp1 (by omega), ← hrs₁]
        have := parseEventBody_channel d ty ch p1 p2 extra hty hty' hch hp1 hp2 hp2'
        rw [if_neg h1] at this
        simpa using this
    · rw [if_neg hsame]
      simp only [List.cons_append, List.nil_append, List.append_assoc]
      rw [parseEvent_status d (ty * 16 + ch) _ rs₁ hd (by omega)]
      exact parseEventBody_channel d ty ch p1 p2 extra hty hty' hch hp1 hp2 hp2'

theorem append_ne_nil_left {l1 l2 : List Nat} (h : l1 ≠ []) : l1 ++ l2 ≠ [] := by
  cases l1 with
  | nil => exact absurd rfl h
  | cons a t => simp

theorem encodeEvent_fst_ne_nil (e : Event) (rs : Nat) : (encodeEvent e rs).1 ≠ [] := by
  cases e <;> exact append_ne_nil_left (encodeVarInt_ne_nil _)

theorem encodeEventsPlain_cons (e : Event) (es : List Event) :
    encodeEventsPlain (e :: es) = (encodeEvent e 0).1 ++ encodeEventsPlain es := rfl

/-- List-level round trip with the running status threaded identically
on both sides. -/
theorem parseEventsAux_encodeEvents (es : List Event) :
    ∀ rs fuel, (∀ e ∈ es, e.wf) → (encodeEvents es rs).length ≤ fuel →
      parseEventsAux fuel (encodeEvents es rs) rs = .ok es := by
  induction es with
  | nil =>
    intro rs fuel _ _
    simp [encodeEvents, parseEventsAux]
  | cons e es ih =>
    intro rs fuel hwf hfuel
    have hhd := encodeEvent_fst_ne_nil e rs
    have hev := parseEvent_encodeEvent e rs rs (encodeEvents es (encodeEvent e rs).2)
      (hwf e (by simp)) (fun _ _ _ _ _ _ h => h)
    rw [show encodeEvents (e :: es) rs
        = (encodeEvent e rs).1 ++ encodeEvents es (encodeEvent e rs).2 from rfl] at hfuel ⊢
    obtain ⟨b, bs, hsplit⟩ : ∃ b bs, (encodeEvent e rs).1 = b :: bs := by
      cases h : (encodeEvent e rs).1 with
      | nil => exact absurd h hhd
      | cons b bs => exact ⟨b, bs, rfl⟩
    rw [hsplit] at hev hfuel ⊢
    simp only [List.length_append, List.length_cons, List.cons_append] at hfuel ⊢
    obtain ⟨f, rfl⟩ : ∃ f, fuel = f + 1 := ⟨fuel - 1, by omega⟩
    show (do
      let (ev, rs', rest) ← parseEvent (b :: (bs ++ encodeEvents es (encodeEvent e rs).2)) rs
      let evs ← parseEventsAux f rest rs'
      .ok (ev :: evs)) = _
    rw [List.cons_append] at hev
    rw [hev]
    simp only [exceptBind_ok]
    rw [ih (encodeEvent e rs).2 f (fun x hx => hwf x (by simp [hx])) (by omega)]
    rfl

/-- Round trip of a whole track body. -/
theorem parseEvents_encodeEvents (es : List Event) (rs : Nat)
    (hwf : ∀ e ∈ es, e.wf) :
    parseEvents (encodeEvents es rs) rs = .ok es :=
  parseEventsAux_encodeEvents es rs _ hwf (by omega)

/-- List-level round trip of the plain (no running status) encoding:
whatever running status the parser holds, the stream re-decodes to the
same events because every channel event carries its status byte. -/
theorem parseEventsAux_encodeEventsPlain (es : List Event) :
    ∀ rs₁ fuel, (∀ e ∈ es, e.wf) → (encodeEventsPlain es).length ≤ fuel →
      parseEventsAux fuel (encodeEventsPlain es) rs₁ = .ok es := by
  induction es with
  | nil =>
    intro rs₁ fuel _ _
    simp [encodeEventsPlain, parseEventsAux]
  | cons e es ih =>
    intro rs₁ fuel hwf hfuel
    have hhd := encodeEvent_fst_ne_nil e 0
    have hs0 : ∀ d ty ch p1 p2, e = .channel d ty ch p1 p2 →
        ty * 16 + ch = 0 → ty * 16 + ch = rs₁ := by
      intro d ty ch p1 p2 he h0
      subst he
      have := hwf (.channel d ty ch p1 p2) (by simp)
      simp only [Event.wf] at this
      omega
    have hev := parseEvent_encodeEvent e 0 rs₁ (encodeEventsPlain es)
      (hwf e (by simp)) hs0
    rw [encodeEventsPlain_cons] at hfuel ⊢
    obtain ⟨b, bs, hsplit⟩ : ∃ b bs, (encodeEvent e 0).1 = b :: bs := by
      cases h : (encodeEvent e 0).1 with
      | nil => exact absurd h hhd
      | cons b bs => exact ⟨b, bs, rfl⟩
    rw [hsplit] at hev hfuel ⊢
    simp only [List.length_append, List.length_cons, List.cons_append] at hfuel ⊢
    obtain ⟨f, rfl⟩ : ∃ f, fuel = f + 1 := ⟨fuel - 1, by omega⟩
    show (do
      let (ev, rs', rest) ← parseEvent (b :: (bs ++ encodeEventsPlain es)) rs₁
      let evs ← parseEventsAux f rest rs'
      .ok (ev :: evs)) = _
    rw [List.cons_append] at hev
    rw [hev]
    simp only [exceptBind_ok]
    rw [ih (encodeEvent e 0).2 f (fun x hx => hwf x (by simp [hx])) (by omega)]
    rfl

/-- The running-status encoding never exceeds the plain encoding in
length. -/
theorem encodeEvents_length_le (es : List Event) :
    ∀ rs, (∀ e ∈ es, e.wf) →
      (encodeEvents es rs).length ≤ (encodeEventsPlain es).length := by
  induction es with
  | nil => intro rs _; simp [encodeEvents, encodeEventsPlain]
  | cons e es ih =>
    intro rs hwf
    rw [encodeEventsPlain_cons,
      show encodeEvents (e :: es) rs
        = (encodeEvent e rs).1 ++ encodeEvents es (encodeEvent e rs).2 from rfl]
    simp only [List.length_append]
    have htail : (encodeEvents es (encodeEvent e rs).2).length
        ≤ (encodeEventsPlain es).length := ih _ (fun x hx => hwf x (by simp [hx]))
    have hhd : (encodeEvent e rs).1.length ≤ (encodeEvent e 0).1.length := by
      cases e with
      | meta d ty data => simp [encodeEvent]
      | sysex d data => simp [encodeEvent]
      | channel d ty ch p1 p2 =>
        have hwfc := hwf (.channel d ty ch p1 p2) (by simp)
        simp only [Event.wf] at hwfc
        show (encodeVarInt d ++ encodeChannelEvent ty ch p1 p2 rs).length
          ≤ (encodeVarInt d ++ encodeChannelEvent ty ch p1 p2 0).length
        simp only [List.length_append, encodeChannelEvent]
        have h0 : ¬ ty * 16 + ch = 0 := by omega
        rw [if_neg h0]
        by_cases hsame : ty * 16 + ch = rs
        · rw [if_pos hsame]; simp
        · rw [if_neg hsame]
    omega


/-! ## Chunk and track lemmas -/

theorem beVal_u16be (n : Nat) (h : n < 65536) : beVal (u16be n) = n := by
  simp only [beVal, u16be, List.foldl]
  omega

theorem beVal_u32be (n : Nat) (h : n < 4294967296) : beVal (u32be n) = n := by
  simp only [beVal, u32be, List.foldl]
  omega

theorem u16be_length (n : Nat) : (u16be n).length = 2 := rfl

theorem u32be_length (n : Nat) : (u32be n).length = 4 := rfl

theorem parseRawChunk_encodeChunk (ty body rest : List Nat)
    (hty : ty.length = 4) (hlen : body.length < 4294967296) :
    parseRawChunk (encodeChunk ty body ++ rest) = .ok (ty, body, rest) := by
  unfold parseRawChunk encodeChunk
  rw [List.append_assoc, List.append_assoc,
    show readBytes 4 (ty ++ (u32be body.length ++ (body ++ rest)))
      = .ok (ty, u32be body.length ++ (body ++ rest)) from hty ▸ readBytes_exact ty _]
  simp only [exceptBind_ok]
  rw [show readBytes 4 (u32be body.length ++ (body ++ rest))
      = .ok (u32be body.length, body ++ rest) from readBytes_exact (u32be body.length) _]
  simp only [exceptBind_ok]
  rw [beVal_u32be _ hlen, readBytes_exact]
  rfl

theorem parseChunk_encodeChunk (ty body rest : List Nat)
    (hty : ty.length = 4) (hlen : body.length < 4294967296) :
    parseChunk ty (encodeChunk ty body ++ rest) = .ok (body, rest) := by
  unfold parseChunk
  rw [parseRawChunk_encodeChunk ty body rest hty hlen]
  simp only [exceptBind_ok]
  simp

theorem endOfTrack_wf (d : Nat) (hd : d < 2 ^ 28) : (endOfTrack d).wf := by
  refine ⟨hd, by norm_num, by norm_num, ?_⟩
  simp [metaLengthOK]

theorem endsWithEOT_append_eot (es : List Event) :
    endsWithEOT (es ++ [endOfTrack 0]) = true := by
  simp [endsWithEOT, endOfTrack, List.getLast?_concat]

theorem parseTrackBody_encode (es : List Event) (hwf : ∀ e ∈ es, e.wf)
    (heot : endsWithEOT es = true) :
    parseTrackBody (encodeEvents es 0) = .ok ⟨es⟩ := by
  unfold parseTrackBody
  rw [parseEvents_encodeEvents es 0 hwf]
  simp only [exceptBind_ok]
  rw [heot]
  rfl

theorem parseTrack_encodeTrack (t : Track) (hwf : ∀ e ∈ t.events, e.wf)
    (hlen : (encodeEvents (if endsWithEOT t.events then t.events
      else t.events ++ [endOfTrack 0]) 0).length < 4294967296) :
    parseTrack (encodeTrack t) =
      .ok (⟨if endsWithEOT t.events then t.events
            else t.events ++ [endOfTrack 0]⟩, []) := by
  unfold parseTrack encodeTrack
  rw [show encodeChunk mtrkTag (encodeEvents (if endsWithEOT t.events then t.events
        else t.events ++ [endOfTrack 0]) 0)
      = encodeChunk mtrkTag (encodeEvents (if endsWithEOT t.events then t.events
        else t.events ++ [endOfTrack 0]) 0) ++ [] from (List.append_nil _).symm,
    parseChunk_encodeChunk _ _ _ (by rfl) hlen]
  simp only [exceptBind_ok]
  have hwf2 : ∀ e ∈ (if endsWithEOT t.events then t.events
      else t.events ++ [endOfTrack 0]), e.wf := by
    intro e he
    by_cases h : endsWithEOT t.events
    · rw [if_pos h] at he; exact hwf e he
    · rw [if_neg h] at he
      rcases List.mem_append.mp he with h1 | h1
      · exact hwf e h1
      · simp only [List.mem_singleton] at h1
        subst h1
        exact endOfTrack_wf 0 (by norm_num)
  have heot2 : endsWithEOT (if endsWithEOT t.events then t.events
      else t.events ++ [endOfTrack 0]) = true := by
    by_cases h : endsWithEOT t.events
    · rw [if_pos h]; exact h
    · rw [if_neg h]; exact endsWithEOT_append_eot _
  rw [parseTrackBody_encode _ hwf2 heot2]
  rfl

/-! ## File lemmas -/

theorem encodeTrack_length_pos (t : Track) : 1 ≤ (encodeTrack t).length := by
  unfold encodeTrack encodeChunk
  simp [mtrkTag]

theorem tracks_length_le_bytes (ts : List Track) :
    ts.length ≤ ((ts.map encodeTrack).flatten).length := by
  induction ts with
  | nil => simp
  | cons t ts ih =>
    simp only [List.map_cons, List.flatten_cons, List.length_append, List.length_cons]
    have := encodeTrack_length_pos t
    omega

theorem parseTracksAux_encode (ts : List Track) :
    ∀ fuel, (∀ t ∈ ts, (∀ e ∈ t.events, e.wf) ∧ endsWithEOT t.events = true ∧
        (encodeEvents t.events 0).length < 4294967296) →
      ts.length ≤ fuel →
      parseTracksAux fuel ts.length ((ts.map encodeTrack).flatten) = .ok ts := by
  induction ts with
  | nil => intro fuel _ _; simp [parseTracksAux]
  | cons t ts ih =>
    intro fuel hwf hfuel
    simp only [List.length_cons] at hfuel
    obtain ⟨f, rfl⟩ : ∃ f, fuel = f + 1 := ⟨fuel - 1, by omega⟩
    obtain ⟨hewf, heot, hlen⟩ := hwf t (by simp)
    simp only [List.map_cons, List.flatten_cons, List.length_cons]
    show parseTracksAux (f + 1) (ts.length + 1)
        (encodeTrack t ++ (ts.map encodeTrack).flatten) = _
    unfold parseTracksAux
    rw [show encodeTrack t = encodeChunk mtrkTag (encodeEvents t.events 0) by
      unfold encodeTrack; rw [if_pos heot]]
    rw [parseRawChunk_encodeChunk _ _ _ (by rfl) hlen]
    dsimp only
    rw [if_pos rfl, parseTrackBody_encode t.events hewf heot]
    simp only [exceptBind_ok]
    rw [ih f (fun x hx => hwf x (by simp [hx])) (by omega)]
    rfl

theorem parseFile_encodeFile (f : File) (hwf : f.wf)
    (heot : ∀ t ∈ f.tracks, endsWithEOT t.events = true) :
    parseFile (encodeFile f) = .ok f := by
  obtain ⟨hft, hft0, hdv0, hdv, htc, htl, htw⟩ := hwf
  unfold encodeFile encodeChunk parseFile
  have hhdr : (u16be f.header.fileType ++ u16be f.tracks.length
      ++ u16be f.header.division).length = 6 := by
    simp [u16be]
  rw [hhdr]
  rw [List.append_assoc, List.append_assoc,
    show readBytes 4 (mthdTag ++ (u32be 6 ++ (u16be f.header.fileType
        ++ u16be f.tracks.length ++ u16be f.header.division
        ++ (f.tracks.map encodeTrack).flatten)))
      = .ok (mthdTag, _) from readBytes_exact mthdTag _]
  simp only [exceptBind_ok]
  rw [if_neg (by simp)]
  rw [show readBytes 4 (u32be 6 ++ (u16be f.header.fileType ++ u16be f.tracks.length
        ++ u16be f.header.division ++ (f.tracks.map encodeTrack).flatten))
      = .ok (u32be 6, _) from readBytes_exact (u32be 6) _]
  simp only [exceptBind_ok]
  rw [if_neg (by rw [beVal_u32be 6 (by norm_num)]; simp)]
  rw [List.append_assoc, List.append_assoc,
    readBytes_exact_len 2 (u16be f.header.fileType) _ (u16be_length _)]
  simp only [exceptBind_ok]
  rw [readBytes_exact_len 2 (u16be f.tracks.length) _ (u16be_length _)]
  simp only [exceptBind_ok]
  rw [readBytes_exact_len 2 (u16be f.header.division) _ (u16be_length _)]
  simp only [exceptBind_ok]
  rw [beVal_u16be f.header.fileType (by omega), beVal_u16be f.tracks.length (by omega),
    beVal_u16be f.header.division (by omega)]
  rw [if_neg (by omega)]
  rw [if_neg (by rintro ⟨h0, h1⟩; exact absurd (hft0 h0) (by omega))]
  have := parseTracksAux_encode f.tracks (((f.tracks.map encodeTrack).flatten).length + 1)
    (fun t ht => ⟨(htw t ht).1, heot t ht, (htw t ht).2⟩)
    (by have := tracks_length_le_bytes f.tracks; omega)
  rw [this]
  simp only [exceptBind_ok]
  rw [← htc]


/-! ## Small step lemmas for the claims -/

theorem parseVarIntAux_step (acc count b : Nat) (rest : List Nat)
    (hc : count < 4) (hb : 128 ≤ b) :
    parseVarIntAux acc count (b :: rest) =
      parseVarIntAux (acc * 128 + b % 128) (count + 1) rest := by
  simp only [parseVarIntAux]
  rw [if_neg (by omega), if_neg (by omega)]

theorem parseVarIntAux_limit (acc : Nat) (bytes : List Nat) :
    parseVarIntAux acc 4 bytes = .error .invalidVarInt := by
  cases bytes <;> simp [parseVarIntAux]

theorem parseVarInt_single (b : Nat) (rest : List Nat) (hb : b < 128) :
    parseVarInt (b :: rest) = .ok (b, rest) := by
  unfold parseVarInt
  simp only [parseVarIntAux]
  rw [if_neg (by omega), if_pos hb]
  simp [Nat.mod_eq_of_lt hb]

/-! ## The claims -/

/-- Claim C1: for every File constructed through the library API whose
tracks each end in an End-of-Track meta event, serializing the File and
parsing the resulting bytes yields the same File back — same header
fileType and division, same number of tracks, and in each track the same
events in the same order with the same delays, types and payload data. -/
theorem claim1_file_roundtrip (f : File) (hwf : f.wf)
    (heot : ∀ t ∈ f.tracks, endsWithEOT t.events = true) :
    parseFile (encodeFile f) = .ok f :=
  parseFile_encodeFile f hwf heot

/-- Witness for C1 at the spec's minimal file (type 1, one track holding
only End-of-Track, division 96). -/
theorem claim1_file_roundtrip_witness :
    File.wf ⟨⟨1, 1, 96⟩, [⟨[endOfTrack 0]⟩]⟩ ∧
      parseFile (encodeFile ⟨⟨1, 1, 96⟩, [⟨[endOfTrack 0]⟩]⟩) =
        .ok ⟨⟨1, 1, 96⟩, [⟨[endOfTrack 0]⟩]⟩ :=
  ⟨by decide, claim1_file_roundtrip ⟨⟨1, 1, 96⟩, [⟨[endOfTrack 0]⟩]⟩ (by decide) (by decide)⟩

/-- Claim C2: for every `n < 2^28`, parsing the buffer produced by
`encodeVarInt n` returns `n`, the buffer's length is exactly
⌈bits_needed(n)/7⌉ with a minimum of one byte, and 0 encodes as the
single byte 0x00. -/
theorem claim2_varint_laws (n : Nat) (h : n < 2 ^ 28) :
    parseVarInt (encodeVarInt n) = .ok (n, []) ∧
    (encodeVarInt n).length = max 1 ((Nat.size n + 6) / 7) ∧
    encodeVarInt 0 = [0x00] := by
  refine ⟨?_, encodeVarInt_length n, rfl⟩
  have := parseVarInt_encodeVarInt n h []
  simpa using this

/-- Witness for C2 at `n = 500000`. -/
theorem claim2_varint_laws_witness :
    500000 < 2 ^ 28 ∧
      (parseVarInt (encodeVarInt 500000) = .ok (500000, []) ∧
       (encodeVarInt 500000).length = max 1 ((Nat.size 500000 + 6) / 7) ∧
       encodeVarInt 0 = [0x00]) :=
  ⟨by norm_num, claim2_varint_laws 500000 (by norm_num)⟩

/-- Claim C3: for a track of channel events sharing one status byte,
encoding then decoding returns the original sequence; the running-status
encoding is never longer than the plain one (every event carrying its
status byte); and both encoded forms decode to the same sequence. -/
theorem claim3_running_status (ty ch : Nat) (es : List Event)
    (_hch : ∀ e ∈ es, ∃ d p1 p2, e = Event.channel d ty ch p1 p2)
    (hwf : ∀ e ∈ es, e.wf) :
    parseEvents (encodeEvents es 0) 0 = .ok es ∧
    (encodeEvents es 0).length ≤ (encodeEventsPlain es).length ∧
    parseEvents (encodeEventsPlain es) 0 = .ok es := by
  refine ⟨parseEvents_encodeEvents es 0 hwf, encodeEvents_length_le es 0 hwf, ?_⟩
  exact parseEventsAux_encodeEventsPlain es 0 _ hwf (by omega)

/-- Witness for C3 at the spec's note-on/note-off pair (status 0x90). -/
theorem claim3_running_status_witness :
    parseEvents (encodeEvents [.channel 0 9 0 60 64, .channel 96 9 0 60 0] 0) 0
        = .ok [.channel 0 9 0 60 64, .channel 96 9 0 60 0] ∧
    (encodeEvents [.channel 0 9 0 60 64, .channel 96 9 0 60 0] 0).length
        ≤ (encodeEventsPlain [.channel 0 9 0 60 64, .channel 96 9 0 60 0]).length ∧
    parseEvents (encodeEventsPlain [.channel 0 9 0 60 64, .channel 96 9 0 60 0]) 0
        = .ok [.channel 0 9 0 60 64, .channel 96 9 0 60 0] :=
  claim3_running_status 9 0 _
    (by
      intro e he
      simp only [List.mem_cons, List.not_mem_nil, or_false] at he
      rcases he with rfl | rfl
      · exact ⟨0, 60, 64, rfl⟩
      · exact ⟨96, 60, 0, rfl⟩)
    (by decide)

/-- Claim C4: a parsed track must end in End-of-Track — `parseTrack`
fails with `MIDIInvalidEventError` on a track body whose event sequence
does not, never synthesizing one — while `encodeTrack` appends an
End-of-Track with delay 0 before framing the MTrk chunk when the track's
event list lacks one. -/
theorem claim4_track_eot (es : List Event) (t : Track)
    (hwf : ∀ e ∈ es, e.wf) (hlen : (encodeEvents es 0).length < 4294967296)
    (hne : endsWithEOT es = false) (hnt : endsWithEOT t.events = false) :
    parseTrack (encodeChunk mtrkTag (encodeEvents es 0)) = .error .invalidEvent ∧
    encodeTrack t = encodeChunk mtrkTag (encodeEvents (t.events ++ [endOfTrack 0]) 0) := by
  constructor
  · unfold parseTrack
    rw [show encodeChunk mtrkTag (encodeEvents es 0)
          = encodeChunk mtrkTag (encodeEvents es 0) ++ [] from (List.append_nil _).symm,
      parseChunk_encodeChunk _ _ _ (by rfl) hlen]
    simp only [exceptBind_ok]
    unfold parseTrackBody
    rw [parseEvents_encodeEvents es 0 hwf]
    simp only [exceptBind_ok]
    rw [hne]
    rfl
  · unfold encodeTrack
    rw [hnt]
    simp

/-- Witness for C4 at a one-event track lacking End-of-Track. -/
theorem claim4_track_eot_witness :
    parseTrack (encodeChunk mtrkTag (encodeEvents [.channel 0 9 0 60 64] 0))
        = .error .invalidEvent ∧
    encodeTrack ⟨[.channel 0 9 0 60 64]⟩
        = encodeChunk mtrkTag (encodeEvents ([.channel 0 9 0 60 64] ++ [endOfTrack 0]) 0) :=
  claim4_track_eot [.channel 0 9 0 60 64] ⟨[.channel 0 9 0 60 64]⟩
    (by decide) (by decide) (by decide) (by decide)

/-- Claim C5: four consecutive bytes with the high bit set and no
terminator make `parseVarInt` fail with `InvalidVarInt`, whatever bytes
follow. -/
theorem claim5_invalid_varint (b0 b1 b2 b3 : Nat) (rest : List Nat)
    (h0 : 128 ≤ b0) (h1 : 128 ≤ b1) (h2 : 128 ≤ b2) (h3 : 128 ≤ b3) :
    parseVarInt (b0 :: b1 :: b2 :: b3 :: rest) = .error .invalidVarInt := by
  unfold parseVarInt
  rw [parseVarIntAux_step _ _ _ _ (by omega) h0,
    parseVarIntAux_step _ _ _ _ (by omega) h1,
    parseVarIntAux_step _ _ _ _ (by omega) h2,
    parseVarIntAux_step _ _ _ _ (by omega) h3,
    parseVarIntAux_limit]

/-- Witness for C5 at the spec's `FF FF FF FF`. -/
theorem claim5_invalid_varint_witness :
    parseVarInt [0xFF, 0xFF, 0xFF, 0xFF] = .error .invalidVarInt :=
  claim5_invalid_varint 0xFF 0xFF 0xFF 0xFF []
    (by norm_num) (by norm_num) (by norm_num) (by norm_num)

/-- Claim C6: when the byte after the delta time is a data byte (high
bit clear) and the running status is 0 (no prior status in the track),
`parseEvent` fails with `MIDIInvalidEventError` and constructs no
event. -/
theorem claim6_running_without_status (bytes : List Nat) (d b : Nat) (rest : List Nat)
    (hv : parseVarInt bytes = .ok (d, b :: rest)) (hb : b < 128) :
    parseEvent bytes 0 = .error .invalidEvent := by
  unfold parseEvent
  rw [hv]
  simp only [exceptBind_ok]
  rw [if_neg (by omega)]
  simp

/-- Witness for C6 at the two-byte buffer `00 3C`. -/
theorem claim6_running_without_status_witness :
    parseEvent [0x00, 0x3C] 0 = .error .invalidEvent :=
  claim6_running_without_status [0x00, 0x3C] 0 0x3C []
    (by rfl) (by norm_num)

/-- Claim C7: a SET_TEMPO (0x51) meta event whose payload length is not
3 and a TIME_SIGNATURE (0x58) meta event whose payload length is not 4
each make `parseMetaEvent` fail with `MIDIInvalidEventError`. -/
theorem claim7_meta_length (d L : Nat) (data : List Nat) (hL : L < 128)
    (hdata : L ≤ data.length) :
    (L ≠ 3 → parseMetaEvent d (0x51 :: L :: data) = .error .invalidEvent) ∧
    (L ≠ 4 → parseMetaEvent d (0x58 :: L :: data) = .error .invalidEvent) := by
  have hvar : parseVarInt (L :: data) = .ok (L, data) := parseVarInt_single L data hL
  have hrd : readBytes L data = .ok (data.take L, data.drop L) := by
    unfold readBytes
    rw [if_pos hdata]
  constructor
  · intro h3
    simp only [parseMetaEvent]
    rw [hvar]
    simp only [exceptBind_ok]
    rw [hrd]
    simp only [exceptBind_ok]
    rw [show metaLengthOK 0x51 L = false from by simp [metaLengthOK]; omega]
    simp
  · intro h4
    simp only [parseMetaEvent]
    rw [hvar]
    simp only [exceptBind_ok]
    rw [hrd]
    simp only [exceptBind_ok]
    rw [show metaLengthOK 0x58 L = false from by simp [metaLengthOK]; omega]
    simp

/-- Witness for C7 at SET_TEMPO with a 2-byte payload and TIME_SIGNATURE
with a 3-byte payload. -/
theorem claim7_meta_length_witness :
    (parseMetaEvent 0 [0x51, 2, 7, 7] = .error .invalidEvent) ∧
    (parseMetaEvent 0 [0x58, 2, 7, 7] = .error .invalidEvent) :=
  ⟨(claim7_meta_length 0 2 [7, 7] (by norm_num) (by norm_num)).1 (by norm_num),
   (claim7_meta_length 0 2 [7, 7] (by norm_num) (by norm_num)).2 (by norm_num)⟩

/-- Claim C8: a buffer whose first four bytes are not the ASCII tag
`MThd` (for instance `RIFF`) fails to parse as a File with
`MIDINotMIDIError`, an error distinct from the generic
`MIDIParserError`. -/
theorem claim8_not_midi (t0 t1 t2 t3 : Nat) (rest : List Nat)
    (h : [t0, t1, t2, t3] ≠ mthdTag) :
    parseFile (t0 :: t1 :: t2 :: t3 :: rest) = .error .notMIDI ∧
      Err.notMIDI ≠ Err.parserError := by
  refine ⟨?_, by decide⟩
  unfold parseFile
  rw [show (t0 :: t1 :: t2 :: t3 :: rest : List Nat) = [t0, t1, t2, t3] ++ rest from rfl,
    readBytes_exact_len 4 [t0, t1, t2, t3] rest rfl]
  simp only [exceptBind_ok]
  rw [if_pos h]

/-- Witness for C8 at a buffer beginning with the ASCII bytes `RIFF`. -/
theorem claim8_not_midi_witness :
    parseFile [0x52, 0x49, 0x46, 0x46, 0, 0, 0, 0] = .error .notMIDI ∧
      Err.notMIDI ≠ Err.parserError :=
  claim8_not_midi 0x52 0x49 0x46 0x46 [0, 0, 0, 0] (by decide)

/-- Claim C9: the header's trackCount equals the length of the track
list after every mutation — `addTrack` inserts a track built from the
given events at the given index (appending by default) and updates the
header, `removeTrack` removes the track at the given index (the last by
default) and updates the header, and `removeTrack` on a File with no
tracks fails with `MIDIInvalidArgument`, leaving no modified File. -/
theorem claim9_trackcount (f : File) (i j : Option Nat) (es : List Event) :
    ((f.addTrack i es).header.trackCount = (f.addTrack i es).tracks.length) ∧
    ((f.addTrack i es).tracks = f.tracks.insertIdx (i.getD f.tracks.length)
      ⟨if endsWithEOT es then es else es ++ [endOfTrack 0]⟩) ∧
    (f.tracks = [] → f.removeTrack j = .error .invalidArgument) ∧
    (f.tracks ≠ [] → f.removeTrack j = .ok
      ⟨⟨f.header.fileType, (f.tracks.eraseIdx (j.getD (f.tracks.length - 1))).length,
        f.header.division⟩, f.tracks.eraseIdx (j.getD (f.tracks.length - 1))⟩) ∧
    (∀ g, f.removeTrack j = .ok g → g.header.trackCount = g.tracks.length) := by
  refine ⟨rfl, rfl, ?_, ?_, ?_⟩
  · intro h
    unfold File.removeTrack
    rw [if_pos (by simp [h])]
  · intro h
    unfold File.removeTrack
    rw [if_neg (by simpa using h)]
  · intro g hg
    unfold File.removeTrack at hg
    by_cases hemp : f.tracks.isEmpty
    · rw [if_pos hemp] at hg
      cases hg
    · rw [if_neg hemp] at hg
      simp only [Except.ok.injEq] at hg
      subst hg
      rfl

/-- Witness for C9 at the one-track minimal file with default indices. -/
theorem claim9_trackcount_witness :
    (((⟨⟨1, 1, 96⟩, [⟨[endOfTrack 0]⟩]⟩ : File).addTrack none []).header.trackCount
        = ((⟨⟨1, 1, 96⟩, [⟨[endOfTrack 0]⟩]⟩ : File).addTrack none []).tracks.length) ∧
    (((⟨⟨1, 1, 96⟩, [⟨[endOfTrack 0]⟩]⟩ : File).addTrack none []).tracks
        = ([⟨[endOfTrack 0]⟩] : List Track).insertIdx
            ((none : Option Nat).getD ([⟨[endOfTrack 0]⟩] : List Track).length)
            ⟨if endsWithEOT [] then ([] : List Event) else [] ++ [endOfTrack 0]⟩) ∧
    (([⟨[endOfTrack 0]⟩] : List Track) = [] →
      (⟨⟨1, 1, 96⟩, [⟨[endOfTrack 0]⟩]⟩ : File).removeTrack none = .error .invalidArgument) ∧
    (([⟨[endOfTrack 0]⟩] : List Track) ≠ [] →
      (⟨⟨1, 1, 96⟩, [⟨[endOfTrack 0]⟩]⟩ : File).removeTrack none = .ok
        ⟨⟨1, (([⟨[endOfTrack 0]⟩] : List Track).eraseIdx
            ((none : Option Nat).getD (([⟨[endOfTrack 0]⟩] : List Track).length - 1))).length,
          96⟩, ([⟨[endOfTrack 0]⟩] : List Track).eraseIdx
            ((none : Option Nat).getD (([⟨[endOfTrack 0]⟩] : List Track).length - 1))⟩) ∧
    (∀ g, (⟨⟨1, 1, 96⟩, [⟨[endOfTrack 0]⟩]⟩ : File).removeTrack none = .ok g →
      g.header.trackCount = g.tracks.length) :=
  claim9_trackcount ⟨⟨1, 1, 96⟩, [⟨[endOfTrack 0]⟩]⟩ none none []

/-- Claim C10: `Track.getEvent` returns the event at an in-range index
and `none` (never an error) out of range; `File.getTrack` behaves the
same for tracks. -/
theorem claim10_get_by_index (t : Track) (f : File) (i : Int) :
    ((0 ≤ i ∧ i < (t.events.length : Int)) →
      t.getEvent i = t.events[i.toNat]? ∧ (t.getEvent i).isSome = true) ∧
    (¬(0 ≤ i ∧ i < (t.events.length : Int)) → t.getEvent i = none) ∧
    ((0 ≤ i ∧ i < (f.tracks.length : Int)) →
      f.getTrack i = f.tracks[i.toNat]? ∧ (f.getTrack i).isSome = true) ∧
    (¬(0 ≤ i ∧ i < (f.tracks.length : Int)) → f.getTrack i = none) := by
  refine ⟨?_, ?_, ?_, ?_⟩
  · rintro ⟨hi0, hilt⟩
    have hlt : i.toNat < t.events.length := by omega
    unfold Track.getEvent
    rw [if_neg (by omega)]
    exact ⟨rfl, by rw [List.getElem?_eq_getElem hlt]; rfl⟩
  · intro h
    unfold Track.getEvent
    by_cases hi : i < 0
    · rw [if_pos hi]
    · rw [if_neg hi]
      have : t.events.length ≤ i.toNat := by omega
      exact List.getElem?_eq_none_iff.mpr this
  · rintro ⟨hi0, hilt⟩
    have hlt : i.toNat < f.tracks.length := by omega
    unfold File.getTrack
    rw [if_neg (by omega)]
    exact ⟨rfl, by rw [List.getElem?_eq_getElem hlt]; rfl⟩
  · intro h
    unfold File.getTrack
    by_cases hi : i < 0
    · rw [if_pos hi]
    · rw [if_neg hi]
      have : f.tracks.length ≤ i.toNat := by omega
      exact List.getElem?_eq_none_iff.mpr this

/-- Witness for C10 at a one-event track and one-track file with index
0 (in range) and the same statement's out-of-range clauses. -/
theorem claim10_get_by_index_witness :
    ((0 ≤ (0 : Int) ∧ (0 : Int) < ((Track.mk [endOfTrack 0]).events.length : Int)) →
      (Track.mk [endOfTrack 0]).getEvent 0 = (Track.mk [endOfTrack 0]).events[(0 : Int).toNat]? ∧
        ((Track.mk [endOfTrack 0]).getEvent 0).isSome = true) ∧
    (¬(0 ≤ (0 : Int) ∧ (0 : Int) < ((Track.mk [endOfTrack 0]).events.length : Int)) →
      (Track.mk [endOfTrack 0]).getEvent 0 = none) ∧
    ((0 ≤ (0 : Int) ∧ (0 : Int) < ((File.mk ⟨1, 1, 96⟩ [⟨[endOfTrack 0]⟩]).tracks.length : Int)) →
      (File.mk ⟨1, 1, 96⟩ [⟨[endOfTrack 0]⟩]).getTrack 0
          = (File.mk ⟨1, 1, 96⟩ [⟨[endOfTrack 0]⟩]).tracks[(0 : Int).toNat]? ∧
        ((File.mk ⟨1, 1, 96⟩ [⟨[endOfTrack 0]⟩]).getTrack 0).isSome = true) ∧
    (¬(0 ≤ (0 : Int) ∧ (0 : Int) < ((File.mk ⟨1, 1, 96⟩ [⟨[endOfTrack 0]⟩]).tracks.length : Int)) →
      (File.mk ⟨1, 1, 96⟩ [⟨[endOfTrack 0]⟩]).getTrack 0 = none) :=
  claim10_get_by_index ⟨[endOfTrack 0]⟩ ⟨⟨1, 1, 96⟩, [⟨[endOfTrack 0]⟩]⟩ 0

end Midijs
